import Mathlib

/-!
Verification of the multipart secret management tool (Go).

The development shallowly embeds the core data model and algorithms of the
repository: JSON documents (as unmarshaled into Go maps) become association
lists of string keys and JSON values, the `json.MarshalIndent` encoding used
for persistence becomes an executable serializer, and the partitioning,
merging, mutation and redistribution functions are translated line by line
from the Go source (the defensive revision that reports errors, i.e. the
`chunkDataIntoSecrets` / `addKeyValues` / `addSecretToGivenPath` /
`parseJSONInput` revision returning `error`, and `secrets_manager.go`'s
`FetchAllSecretData` / `RedistributeSecrets`).

Representation note: Go's `map[string]interface{}` is modeled as an
association list with pairwise distinct keys.  `json.Marshal` of a Go map
emits the entries in ascending key order, so serializing a chunk whose
entries are kept in ascending key order (which the chunker guarantees,
since it inserts keys in sorted order) is byte-for-byte the encoding Go
produces.
-/

namespace MultipartSecrets

/-- JSON values as produced by Go's `json.Unmarshal` into `interface{}`.
Numbers carry their rendered decimal text (Go renders `float64` values with a
fixed deterministic algorithm; the exact text is irrelevant to the claims, so
the model simply carries it). -/
inductive Value where
  | str (s : String)
  | num (lit : String)
  | bool (b : Bool)
  | null
  | arr (elems : List Value)
  | obj (entries : List (String × Value))

/-- A logical document / chunk: the contents of a Go `map[string]interface{}`,
as an association list with pairwise distinct keys. -/
abbrev Obj := List (String × Value)

/-- Byte count of one character under UTF-8, modeling Go's `[]byte(s)`
encoding width for the corresponding rune. -/
def charBytes (c : Char) : Nat :=
  if c.toNat < 0x80 then 1
  else if c.toNat < 0x800 then 2
  else if c.toNat < 0x10000 then 3
  else 4

/-- Embeds `getSecretSize` (`len([]byte(data))`): the UTF-8 byte length. -/
def getSecretSize (data : String) : Nat :=
  (data.data.map charBytes).sum

/-- Embeds the constant `MaxSecretSizeBytes = 50 * 1024`. -/
def MaxSecretSizeBytes : Nat := 50 * 1024

/-- Lower-case hexadecimal digit, as used by Go's JSON `\u00xx` escapes. -/
def hexDigit (n : Nat) : Char :=
  if n < 10 then Char.ofNat (48 + n) else Char.ofNat (87 + (n - 10))

/-- Two-digit lower-case hexadecimal rendering of a byte value. -/
def hexByte (n : Nat) : String :=
  String.mk [hexDigit (n / 16), hexDigit (n % 16)]

/-- Escaping of one character inside a JSON string, following Go's
`encoding/json` encoder (HTML escaping enabled, as `json.Marshal` defaults). -/
def escapeChar (c : Char) : String :=
  if c = '"' then "\\\""
  else if c = '\\' then "\\\\"
  else if c = '<' then "\\u003c"
  else if c = '>' then "\\u003e"
  else if c = '&' then "\\u0026"
  else if c = '\n' then "\\n"
  else if c = '\r' then "\\r"
  else if c = '\t' then "\\t"
  else if c.toNat < 0x20 then "\\u00" ++ hexByte c.toNat
  else if c.toNat = 0x2028 then "\\u2028"
  else if c.toNat = 0x2029 then "\\u2029"
  else String.singleton c

/-- JSON string literal for `s`, as emitted by Go's `encoding/json`. -/
def quoteStr (s : String) : String :=
  "\"" ++ String.join (s.data.map escapeChar) ++ "\""

/-- Indentation prefix at nesting depth `d` for `json.MarshalIndent(v, "", "  ")`. -/
def indentStr (d : Nat) : String :=
  String.join (List.replicate d "  ")

mutual

/-- Rendering of a JSON value at nesting depth `d`, modeling
`json.MarshalIndent(v, "", "  ")`. -/
def serializeVal (d : Nat) : Value → String
  | .str s => quoteStr s
  | .num lit => lit
  | .bool b => if b then "true" else "false"
  | .null => "null"
  | .arr es => serializeArr d es
  | .obj es => serializeObjAt d es

/-- Rendering of a JSON array at depth `d`. -/
def serializeArr (d : Nat) (es : List Value) : String :=
  match es with
  | [] => "[]"
  | e :: rest =>
    "[\n" ++ indentStr (d + 1) ++ serializeVal (d + 1) e ++
      serializeArrRest d rest ++ "\n" ++ indentStr d ++ "]"

/-- Remaining elements of a JSON array (each preceded by a comma). -/
def serializeArrRest (d : Nat) (es : List Value) : String :=
  match es with
  | [] => ""
  | e :: rest =>
    ",\n" ++ indentStr (d + 1) ++ serializeVal (d + 1) e ++ serializeArrRest d rest

/-- Rendering of a JSON object at depth `d`; entries are emitted in list
order (Go emits map entries in ascending key order, and every object this
development serializes keeps its entries in that order). -/
def serializeObjAt (d : Nat) (es : List (String × Value)) : String :=
  match es with
  | [] => "\x7b\x7d"
  | (k, v) :: rest =>
    "\x7b\n" ++ indentStr (d + 1) ++ quoteStr k ++ ": " ++ serializeVal (d + 1) v ++
      serializeObjRest d rest ++ "\n" ++ indentStr d ++ "\x7d"

/-- Remaining entries of a JSON object (each preceded by a comma). -/
def serializeObjRest (d : Nat) (es : List (String × Value)) : String :=
  match es with
  | [] => ""
  | (k, v) :: rest =>
    ",\n" ++ indentStr (d + 1) ++ quoteStr k ++ ": " ++ serializeVal (d + 1) v ++
      serializeObjRest d rest

end

/-- `json.MarshalIndent(m, "", "  ")` applied to a whole document/chunk:
the persisted form of a part. -/
def serializeTop (m : Obj) : String :=
  serializeObjAt 0 m

/-- Go map read `v, ok := m[k]`. -/
def lookupOpt : Obj → String → Option Value
  | [], _ => none
  | (k', v) :: rest, k => if k' = k then some v else lookupOpt rest k

/-- Go map read `m[k]` where the key is known to be present (absent keys
yield the zero value, modeled as `null`). -/
def lookupD (m : Obj) (k : String) : Value :=
  (lookupOpt m k).getD .null

/-- Go map write `m[k] = v`: replace the binding if the key is present,
otherwise append a fresh binding. -/
def upsert : Obj → String → Value → Obj
  | [], k, v => [(k, v)]
  | (k', v') :: rest, k, v =>
    if k' = k then (k, v) :: rest else (k', v') :: upsert rest k v

/-- Successive Go map writes `m[k] = v` for each pair of `entries`. -/
def writeAll (m : Obj) (entries : Obj) : Obj :=
  entries.foldl (fun acc p => upsert acc p.1 p.2) m

/-- The sorted-ascending key sequence the partitioner iterates over
(`sort.Strings(keys)`). -/
def sortedKeys (data : Obj) : List String :=
  List.insertionSort (fun a b : String => a ≤ b) (data.map Prod.fst)

/-- Loop body of `chunkDataIntoSecrets` (the revision returning `error`):
iterate the sorted keys, fail if a single pair alone exceeds the limit,
otherwise greedily grow `current` and flush it when the trial add exceeds
the limit while `current` is non-empty. -/
def chunkGo (data : Obj) : List String → Obj → List Obj → Except String (List Obj)
  | [], current, chunks =>
    if current.isEmpty then .ok chunks else .ok (chunks ++ [current])
  | k :: keys, current, chunks =>
    let v := lookupD data k
    let single := serializeTop [(k, v)]
    if MaxSecretSizeBytes < getSecretSize single then
      .error ("key '" ++ k ++ "' exceeds max chunk size")
    else
      let test := current ++ [(k, v)]
      if MaxSecretSizeBytes < getSecretSize (serializeTop test) ∧ ¬ current.isEmpty then
        chunkGo data keys [(k, v)] (chunks ++ [current])
      else
        chunkGo data keys test chunks

/-- Embeds `chunkDataIntoSecrets`: deterministic greedy partitioning of a
document into size-bounded chunks, iterating keys in sorted order. -/
def chunkDataIntoSecrets (data : Obj) : Except String (List Obj) :=
  chunkGo data (sortedKeys data) [] []

/-- Validation loop of `addKeyValues`: scan the change set's keys and report
the first conflict (present key without `forceUpdate`, absent key with it). -/
def checkKeys (all : Obj) (newData : Obj) (forceUpdate : Bool) : Option String :=
  match newData with
  | [] => none
  | (k, _) :: rest =>
    if forceUpdate then
      if (lookupOpt all k).isSome then checkKeys all rest forceUpdate
      else some ("key '" ++ k ++ "' not found for update")
    else
      if (lookupOpt all k).isSome then some ("key '" ++ k ++ "' already exists")
      else checkKeys all rest forceUpdate

/-- Embeds `addKeyValues` (flat-mode mutation): validate every key of the
change set first, then write all pairs into the document. -/
def addKeyValues (all newData : Obj) (forceUpdate : Bool) : Except String Obj :=
  match checkKeys all newData forceUpdate with
  | some e => .error e
  | none => .ok (writeAll all newData)

/-- Final loop of `addSecretToGivenPath`: for each pair of the change set,
check the conflict rule and then immediately write the pair into the target
object (the source interleaves validation and writes in this single loop). -/
def mergeAtTarget (target newData : Obj) (forceUpdate : Bool) : Obj × Option String :=
  match newData with
  | [] => (target, none)
  | (k, v) :: rest =>
    if forceUpdate then
      if (lookupOpt target k).isSome then mergeAtTarget (upsert target k v) rest forceUpdate
      else (target, some ("key '" ++ k ++ "' not found at path for update"))
    else
      if (lookupOpt target k).isSome then (target, some ("key '" ++ k ++ "' already exists at path"))
      else mergeAtTarget (upsert target k v) rest forceUpdate

/-- Descent loop of `addSecretToGivenPath`: follow each path segment through
the document (failing if a segment is absent or not an object), then run the
merge loop on the target object.  The Go code mutates the nested maps through
aliasing; the model rebuilds the spine, which yields the same final document. -/
def addPathGo (all newData : Obj) (segs : List String) (forceUpdate : Bool) : Obj × Option String :=
  match segs with
  | [] => mergeAtTarget all newData forceUpdate
  | key :: restPath =>
    match lookupOpt all key with
    | none => (all, some ("key '" ++ key ++ "' in path does not exist"))
    | some val =>
      match val with
      | .obj inner =>
        let r := addPathGo inner newData restPath forceUpdate
        (upsert all key (.obj r.1), r.2)
      | _ => (all, some ("key '" ++ key ++ "' in path is not a map"))

/-- Splitting of a character list at `.` separators, modeling Go's
`strings.Split(s, ".")`. -/
def splitCharsOnDot : List Char → List String
  | [] => [""]
  | c :: cs =>
    let r := splitCharsOnDot cs
    if c = '.' then "" :: r
    else
      match r with
      | [] => [String.mk [c]]
      | h :: t => String.mk (c :: h.data) :: t

/-- `strings.Split(s, ".")`. -/
def splitOnDot (s : String) : List String :=
  splitCharsOnDot s.data

/-- Embeds `addSecretToGivenPath` (path-mode mutation).  Returns the
resulting document together with the error, if any: because the Go code
mutates the shared maps in place, the document is changed even on the error
paths that are reached after some pairs were already written. -/
def addSecretToGivenPath (all newData : Obj) (jsonPath : String) (forceUpdate : Bool) :
    Obj × Option String :=
  addPathGo all newData (splitOnDot jsonPath) forceUpdate

/-- Result of `json.Unmarshal` of one raw payload into
`map[string]interface{}`: a syntax error, the `null` document (which leaves
the Go map `nil`), or a JSON object with its entries. -/
inductive Payload where
  | malformed
  | nullDoc
  | objDoc (entries : Obj)

/-- Inner loop of `FetchAllSecretData`: fold one part's entries into the
accumulated document, failing on a key that is already present. -/
def mergePart (all : Obj) (entries : Obj) (name : String) : Except String Obj :=
  match entries with
  | [] => .ok all
  | (k, v) :: rest =>
    if (lookupOpt all k).isSome then
      .error ("duplicate key '" ++ k ++ "' found in secret part '" ++ name ++ "'")
    else
      mergePart (upsert all k v) rest name

/-- Part-by-part loop of `FetchAllSecretData` (`secrets_manager.go`): for
each fetched part, fail on a malformed payload; if the unmarshaled map is
non-nil merge its entries (with the duplicate check), and only a `nil` map
(JSON `null`) triggers the empty/null error. -/
def fetchGo : List (String × Payload) → Obj → Except String Obj
  | [], all => .ok all
  | (name, p) :: rest, all =>
    match p with
    | .malformed => .error ("failed to unmarshal secret '" ++ name ++ "'")
    | .nullDoc => .error ("secret '" ++ name ++ "' contains empty/null JSON data")
    | .objDoc entries =>
      match mergePart all entries name with
      | .error e => .error e
      | .ok all2 => fetchGo rest all2

/-- Embeds `FetchAllSecretData`: merge the fetched parts, in the given
(ascending part-index) order, into one logical document. -/
def fetchAllSecretData (parts : List (String × Payload)) : Except String Obj :=
  fetchGo parts []

/-- Embeds `parseJSONInput` (the revision preserving JSON structure): reject
malformed input and any input whose top-level object has zero keys (a `nil`
map from JSON `null` also has length zero and is rejected the same way). -/
def parseJSONInput (input : Payload) : Except String Obj :=
  match input with
  | .malformed => .error "invalid JSON data"
  | .nullDoc => .error "JSON data is empty"
  | .objDoc entries =>
    if entries.length = 0 then .error "JSON data is empty" else .ok entries

/-- Decimal digit character, modeling `fmt.Sprintf("%d", ...)` output. -/
def digitChar (d : Nat) : Char :=
  Char.ofNat (48 + d)

/-- Decimal digit list of a natural number, most significant first. -/
def natDigits (n : Nat) : List Char :=
  if _h : n < 10 then [digitChar n]
  else natDigits (n / 10) ++ [digitChar (n % 10)]
decreasing_by exact Nat.div_lt_self (by omega) (by omega)

/-- Decimal rendering of a natural number (`%d` for non-negative values). -/
def natStr (n : Nat) : String :=
  String.mk (natDigits n)

/-- Numeric value of a decimal digit string; the left inverse of `natDigits`
used to show the decimal rendering is injective. -/
def digitsVal (cs : List Char) : Nat :=
  cs.foldl (fun acc c => acc * 10 + (c.toNat - 48)) 0

/-- Decimal rendering of an integer, modeling `fmt.Sprintf("%d", n)`. -/
def fmtInt (i : Int) : String :=
  if i < 0 then "-" ++ natStr i.natAbs else natStr i.toNat

/-- The part naming scheme used by the reuse branch of `RedistributeSecrets`
(and by `FetchAllSecretData`'s name construction): index `0` is the bare base
name, index `k ≠ 0` is `base-k`. -/
def nameOfIndex (base : String) (n : Int) : String :=
  if n = 0 then base else base ++ "-" ++ fmtInt n

/-- Physical name assigned to chunk `i` by the loop of `RedistributeSecrets`:
positions below the number of existing parts reuse the existing sorted
indices (bare base name for index 0), later positions are always rendered
with a dash using the running counter `maxNum + 1 + (i - m)`. -/
def slotName (base : String) (ns : List Int) (maxNum : Int) (i : Nat) : String :=
  if h : i < ns.length then
    nameOfIndex base (ns.get ⟨i, h⟩)
  else
    base ++ "-" ++ fmtInt (maxNum + 1 + ((i : Int) - (ns.length : Int)))

/-- Write-assignment loop of `RedistributeSecrets`: pair chunk `i` with its
assigned physical name, in loop order. -/
def assignGo (base : String) (ns : List Int) (maxNum : Int) : Nat → List Obj → List (String × Obj)
  | _, [] => []
  | i, c :: cs => (slotName base ns maxNum i, c) :: assignGo base ns maxNum (i + 1) cs

/-- Embeds `RedistributeSecrets` (`secrets_manager.go`): sort the existing
part indices, refuse to shrink the part count (this check precedes the write
loop, so the error is returned before any upsert is issued — an `error`
result carries no writes), otherwise produce the ordered list of
(name, chunk) upserts. -/
def redistributeSecrets (base : String) (chunks : List Obj) (numbers : List Int) :
    Except String (List (String × Obj)) :=
  let ns := List.insertionSort (fun a b : Int => a ≤ b) numbers
  if chunks.length < ns.length then
    .error ("number of new chunks (" ++ natStr chunks.length ++
      ") is less than existing multipart secrets (" ++ natStr ns.length ++ ")")
  else
    .ok (assignGo base ns (ns.getLastD (-1)) 0 chunks)

/-- Document rebuilt by applying a set of entries at a nested path: descend
through the path (returning the document unchanged if the descent fails) and
write every entry into the target object.  Used to state what
`addSecretToGivenPath` actually leaves behind. -/
def writeAtPath (all : Obj) (segs : List String) (entries : Obj) : Obj :=
  match segs with
  | [] => writeAll all entries
  | key :: rest =>
    match lookupOpt all key with
    | some (.obj inner) => upsert all key (.obj (writeAtPath inner rest entries))
    | _ => all

/-- The slot index the specification assigns to chunk `i` (claim C8's
formula): reuse `E[i]` below `m`, allocate `max(E) + 1 + (i - m)` above. -/
def slotIndexSpec (ns : List Int) (maxNum : Int) (i : Nat) : Int :=
  if h : i < ns.length then ns.get ⟨i, h⟩
  else maxNum + 1 + ((i : Int) - (ns.length : Int))

/-! ### Association-list lemmas -/

theorem lookupD_nil (k : String) : lookupD [] k = .null := rfl

theorem lookupD_cons (k' : String) (v : Value) (rest : Obj) (k : String) :
    lookupD ((k', v) :: rest) k = if k' = k then v else lookupD rest k := by
  by_cases h : k' = k <;> simp [lookupD, lookupOpt, h]

theorem lookupOpt_isSome_iff (l : Obj) (k : String) :
    (lookupOpt l k).isSome = true ↔ k ∈ l.map Prod.fst := by
  induction l with
  | nil => simp [lookupOpt]
  | cons p rest ih =>
    obtain ⟨k', v⟩ := p
    by_cases h : k' = k
    · subst h
      simp [lookupOpt]
    · rw [List.map_cons, List.mem_cons]
      simp only [lookupOpt, if_neg h, ih]
      constructor
      · exact Or.inr
      · rintro (h2 | hm)
        · exact absurd h2.symm h
        · exact hm

theorem lookupD_mem (l : Obj) (k : String) (h : k ∈ l.map Prod.fst) :
    (k, lookupD l k) ∈ l := by
  induction l with
  | nil => simp at h
  | cons p rest ih =>
    obtain ⟨k', v⟩ := p
    by_cases hk : k' = k
    · subst hk
      simp [lookupD_cons]
    · rw [List.map_cons, List.mem_cons] at h
      have hr : k ∈ rest.map Prod.fst := by
        rcases h with h2 | h2
        · exact absurd h2.symm hk
        · exact h2
      simp only [lookupD_cons, if_neg hk]
      exact List.mem_cons_of_mem _ (ih hr)

theorem lookupD_eq_of_mem (l : Obj) (k : String) (v : Value)
    (hnd : (l.map Prod.fst).Nodup) (h : (k, v) ∈ l) : lookupD l k = v := by
  induction l with
  | nil => simp at h
  | cons p rest ih =>
    obtain ⟨k', v'⟩ := p
    rcases List.mem_cons.mp h with h1 | h1
    · obtain ⟨rfl, rfl⟩ := Prod.mk.injEq .. ▸ h1
      simp [lookupD_cons]
    · have hk : k' ≠ k := by
        rintro rfl
        exact (List.nodup_cons.mp hnd).1 (List.mem_map.mpr ⟨(k', v), h1, rfl⟩)
      rw [lookupD_cons, if_neg hk]
      exact ih (List.nodup_cons.mp hnd).2 h1

theorem map_lookup_eq_self (l : Obj) (hnd : (l.map Prod.fst).Nodup) :
    (l.map Prod.fst).map (fun k => (k, lookupD l k)) = l := by
  induction l with
  | nil => rfl
  | cons p rest ih =>
    obtain ⟨k', v⟩ := p
    have hni : k' ∉ rest.map Prod.fst := (List.nodup_cons.mp hnd).1
    rw [List.map_cons, List.map_cons]
    have hcong : ∀ k ∈ rest.map Prod.fst,
        (fun k => (k, lookupD ((k', v) :: rest) k)) k = (fun k => (k, lookupD rest k)) k := by
      intro k hk
      have hne : k' ≠ k := by rintro rfl; exact hni hk
      simp [lookupD_cons, hne]
    rw [List.map_congr_left hcong, ih (List.nodup_cons.mp hnd).2]
    simp [lookupD_cons]

theorem lookupD_congr_perm (l1 l2 : Obj) (hp : l1.Perm l2)
    (hnd : (l1.map Prod.fst).Nodup) (k : String) : lookupD l1 k = lookupD l2 k := by
  by_cases h : k ∈ l1.map Prod.fst
  · have h2 : (l2.map Prod.fst).Nodup := ((hp.map Prod.fst).nodup_iff).mp hnd
    have hm : (k, lookupD l1 k) ∈ l2 := hp.mem_iff.mp (lookupD_mem l1 k h)
    exact (lookupD_eq_of_mem l2 k _ h2 hm).symm
  · have h2 : k ∉ l2.map Prod.fst := fun hm => h ((hp.map Prod.fst).mem_iff.mpr hm)
    have e1 : lookupOpt l1 k = none := by
      by_contra hne
      exact h ((lookupOpt_isSome_iff l1 k).mp (Option.isSome_iff_ne_none.mpr hne))
    have e2 : lookupOpt l2 k = none := by
      by_contra hne
      exact h2 ((lookupOpt_isSome_iff l2 k).mp (Option.isSome_iff_ne_none.mpr hne))
    simp [lookupD, e1, e2]

theorem upsert_eq_append (l : Obj) (k : String) (v : Value)
    (h : k ∉ l.map Prod.fst) : upsert l k v = l ++ [(k, v)] := by
  induction l with
  | nil => rfl
  | cons p rest ih =>
    obtain ⟨k', v'⟩ := p
    have hk : k' ≠ k := by
      rintro rfl
      exact h (by simp)
    have hr : k ∉ rest.map Prod.fst := fun hm => h (by simp [hm])
    simp [upsert, hk, ih hr]

theorem lookupD_upsert_self (l : Obj) (k : String) (v : Value) :
    lookupD (upsert l k v) k = v := by
  induction l with
  | nil => simp [upsert, lookupD_cons]
  | cons p rest ih =>
    obtain ⟨k', v'⟩ := p
    by_cases h : k' = k <;> simp [upsert, h, lookupD_cons, ih]

theorem lookupOpt_upsert_ne (l : Obj) (k : String) (v : Value) (k2 : String) (h : k ≠ k2) :
    lookupOpt (upsert l k v) k2 = lookupOpt l k2 := by
  induction l with
  | nil => simp [upsert, lookupOpt, h]
  | cons p rest ih =>
    obtain ⟨k', v'⟩ := p
    by_cases hk : k' = k
    · subst hk
      simp [upsert, lookupOpt, h]
    · simp [upsert, hk, lookupOpt, ih]

theorem lookupD_upsert_ne (l : Obj) (k : String) (v : Value) (k2 : String) (h : k ≠ k2) :
    lookupD (upsert l k v) k2 = lookupD l k2 := by
  simp [lookupD, lookupOpt_upsert_ne l k v k2 h]

theorem lookupD_writeAll_not_mem (l : Obj) (entries : Obj) (k : String)
    (h : k ∉ entries.map Prod.fst) : lookupD (writeAll l entries) k = lookupD l k := by
  induction entries generalizing l with
  | nil => rfl
  | cons p rest ih =>
    obtain ⟨k', v⟩ := p
    have hk : k' ≠ k := by rintro rfl; exact h (by simp)
    have hr : k ∉ rest.map Prod.fst := fun hm => h (by simp [hm])
    show lookupD (writeAll (upsert l k' v) rest) k = lookupD l k
    rw [ih (upsert l k' v) hr, lookupD_upsert_ne l k' v k hk]

theorem lookupD_writeAll_mem (l : Obj) (entries : Obj) (k : String) (v : Value)
    (hnd : (entries.map Prod.fst).Nodup) (h : (k, v) ∈ entries) :
    lookupD (writeAll l entries) k = v := by
  induction entries generalizing l with
  | nil => simp at h
  | cons p rest ih =>
    obtain ⟨k', v'⟩ := p
    rcases List.mem_cons.mp h with h1 | h1
    · obtain ⟨rfl, rfl⟩ := Prod.mk.injEq .. ▸ h1
      have hni : k ∉ rest.map Prod.fst := (List.nodup_cons.mp hnd).1
      show lookupD (writeAll (upsert l k v) rest) k = v
      rw [lookupD_writeAll_not_mem _ rest k hni, lookupD_upsert_self]
    · show lookupD (writeAll (upsert l k' v') rest) k = v
      exact ih (upsert l k' v') (List.nodup_cons.mp hnd).2 h1

/-! ### Partitioner lemmas -/

theorem chunkGo_nil_eq (data : Obj) (current : Obj) (chunks : List Obj) :
    chunkGo data [] current chunks =
      if current.isEmpty then .ok chunks else .ok (chunks ++ [current]) := rfl

theorem chunkGo_cons_eq (data : Obj) (k : String) (keys : List String) (current : Obj)
    (chunks : List Obj) :
    chunkGo data (k :: keys) current chunks =
      if MaxSecretSizeBytes < getSecretSize (serializeTop [(k, lookupD data k)]) then
        .error ("key '" ++ k ++ "' exceeds max chunk size")
      else if MaxSecretSizeBytes < getSecretSize (serializeTop (current ++ [(k, lookupD data k)])) ∧
          ¬ current.isEmpty then
        chunkGo data keys [(k, lookupD data k)] (chunks ++ [current])
      else
        chunkGo data keys (current ++ [(k, lookupD data k)]) chunks := rfl

theorem chunkGo_ok_of_fits (data : Obj) (keys : List String) (current : Obj) (chunks : List Obj)
    (hfit : ∀ k ∈ keys, getSecretSize (serializeTop [(k, lookupD data k)]) ≤ MaxSecretSizeBytes) :
    ∃ out, chunkGo data keys current chunks = .ok out ∧
      out.flatten = chunks.flatten ++ current ++ keys.map (fun k => (k, lookupD data k)) := by
  induction keys generalizing current chunks with
  | nil =>
    by_cases hc : current = []
    · subst hc
      exact ⟨chunks, by rw [chunkGo_nil_eq]; rfl, by simp⟩
    · have hce : ¬ (current.isEmpty = true) := by
        simpa [List.isEmpty_iff] using hc
      refine ⟨chunks ++ [current], ?_, ?_⟩
      · rw [chunkGo_nil_eq, if_neg hce]
      · simp
  | cons k keys ih =>
    have h1 : ¬ MaxSecretSizeBytes < getSecretSize (serializeTop [(k, lookupD data k)]) :=
      not_lt.mpr (hfit k (by simp))
    have hfit2 : ∀ k2 ∈ keys,
        getSecretSize (serializeTop [(k2, lookupD data k2)]) ≤ MaxSecretSizeBytes :=
      fun k2 hk2 => hfit k2 (by simp [hk2])
    rw [chunkGo_cons_eq, if_neg h1]
    by_cases h2 : MaxSecretSizeBytes < getSecretSize (serializeTop (current ++ [(k, lookupD data k)])) ∧
        ¬ current.isEmpty
    · rw [if_pos h2]
      obtain ⟨out, hout, hflat⟩ := ih [(k, lookupD data k)] (chunks ++ [current]) hfit2
      refine ⟨out, hout, ?_⟩
      rw [hflat]
      simp
    · rw [if_neg h2]
      obtain ⟨out, hout, hflat⟩ := ih (current ++ [(k, lookupD data k)]) chunks hfit2
      refine ⟨out, hout, ?_⟩
      rw [hflat]
      simp

theorem chunkGo_error_of_exceeds (data : Obj) (keys : List String) (current : Obj)
    (chunks : List Obj)
    (hbig : ∃ k ∈ keys, MaxSecretSizeBytes < getSecretSize (serializeTop [(k, lookupD data k)])) :
    ∃ e, chunkGo data keys current chunks = .error e := by
  induction keys generalizing current chunks with
  | nil => simp at hbig
  | cons k keys ih =>
    by_cases h1 : MaxSecretSizeBytes < getSecretSize (serializeTop [(k, lookupD data k)])
    · exact ⟨"key '" ++ k ++ "' exceeds max chunk size", by rw [chunkGo_cons_eq, if_pos h1]⟩
    · obtain ⟨k0, hk0, hbig0⟩ := hbig
      have hk0m : k0 ∈ keys := by
        rcases List.mem_cons.mp hk0 with rfl | h
        · exact absurd hbig0 h1
        · exact h
      rw [chunkGo_cons_eq, if_neg h1]
      by_cases h2 : MaxSecretSizeBytes < getSecretSize (serializeTop (current ++ [(k, lookupD data k)])) ∧
          ¬ current.isEmpty
      · rw [if_pos h2]
        exact ih [(k, lookupD data k)] (chunks ++ [current]) ⟨k0, hk0m, hbig0⟩
      · rw [if_neg h2]
        exact ih (current ++ [(k, lookupD data k)]) chunks ⟨k0, hk0m, hbig0⟩

theorem chunkGo_sizes (data : Obj) (keys : List String) (current : Obj) (chunks : List Obj)
    (out : List Obj)
    (hchunks : ∀ c ∈ chunks, getSecretSize (serializeTop c) ≤ MaxSecretSizeBytes)
    (hcur : getSecretSize (serializeTop current) ≤ MaxSecretSizeBytes)
    (hout : chunkGo data keys current chunks = .ok out) :
    ∀ c ∈ out, getSecretSize (serializeTop c) ≤ MaxSecretSizeBytes := by
  induction keys generalizing current chunks with
  | nil =>
    rw [chunkGo_nil_eq] at hout
    by_cases hc : current = []
    · subst hc
      rw [if_pos (show ([] : Obj).isEmpty = true from rfl)] at hout
      cases hout
      exact hchunks
    · have hce : ¬ (current.isEmpty = true) := by
        simpa [List.isEmpty_iff] using hc
      rw [if_neg hce] at hout
      cases hout
      intro c hc2
      rcases List.mem_append.mp hc2 with h | h
      · exact hchunks c h
      · simp only [List.mem_singleton] at h
        subst h
        exact hcur
  | cons k keys ih =>
    rw [chunkGo_cons_eq] at hout
    by_cases h1 : MaxSecretSizeBytes < getSecretSize (serializeTop [(k, lookupD data k)])
    · rw [if_pos h1] at hout
      cases hout
    · rw [if_neg h1] at hout
      by_cases h2 : MaxSecretSizeBytes < getSecretSize (serializeTop (current ++ [(k, lookupD data k)])) ∧
          ¬ current.isEmpty
      · rw [if_pos h2] at hout
        refine ih [(k, lookupD data k)] (chunks ++ [current]) ?_ ?_ hout
        · intro c hcm
          rcases List.mem_append.mp hcm with h | h
          · exact hchunks c h
          · simp only [List.mem_singleton] at h
            subst h
            exact hcur
        · simpa using not_lt.mp h1
      · rw [if_neg h2] at hout
        refine ih (current ++ [(k, lookupD data k)]) chunks hchunks ?_ hout
        rcases not_and_or.mp h2 with h | h
        · exact not_lt.mp h
        · have hcc : current = [] := by
            simpa [List.isEmpty_iff] using not_not.mp h
          subst hcc
          simpa using not_lt.mp h1

theorem chunkGo_congr (data1 data2 : Obj) (keys : List String) (current : Obj)
    (chunks : List Obj) (hl : ∀ k ∈ keys, lookupD data1 k = lookupD data2 k) :
    chunkGo data1 keys current chunks = chunkGo data2 keys current chunks := by
  induction keys generalizing current chunks with
  | nil => rfl
  | cons k keys ih =>
    have hk : lookupD data1 k = lookupD data2 k := hl k (by simp)
    have hl2 : ∀ k2 ∈ keys, lookupD data1 k2 = lookupD data2 k2 :=
      fun k2 h => hl k2 (by simp [h])
    rw [chunkGo_cons_eq, chunkGo_cons_eq, hk]
    by_cases h1 : MaxSecretSizeBytes < getSecretSize (serializeTop [(k, lookupD data2 k)])
    · rw [if_pos h1, if_pos h1]
    · rw [if_neg h1, if_neg h1]
      by_cases h2 : MaxSecretSizeBytes < getSecretSize (serializeTop (current ++ [(k, lookupD data2 k)])) ∧
          ¬ current.isEmpty
      · rw [if_pos h2, if_pos h2]
        exact ih _ _ hl2
      · rw [if_neg h2, if_neg h2]
        exact ih _ _ hl2

/-! ### Claim C1: partition/merge round-trip -/

/-- Claim C1: for every logical document in which no single key-value pair's
serialization exceeds the byte limit, partitioning with `chunkDataIntoSecrets`
and merging the resulting chunks (concatenating their key-value pairs) yields
exactly the original document: the chunks' key lists concatenate to a
duplicate-free list (so the chunks' key sets are pairwise disjoint), and the
concatenation of the chunks is a permutation of the document (same key set,
every key mapped to its original value). -/
theorem chunk_merge_roundtrip (doc : Obj)
    (hnd : (doc.map Prod.fst).Nodup)
    (hfit : ∀ p ∈ doc, getSecretSize (serializeTop [p]) ≤ MaxSecretSizeBytes) :
    ∃ chunks, chunkDataIntoSecrets doc = .ok chunks ∧
      ((chunks.map (fun c => c.map Prod.fst)).flatten).Nodup ∧
      chunks.flatten.Perm doc := by
  have hkperm : (sortedKeys doc).Perm (doc.map Prod.fst) := List.perm_insertionSort _ _
  have hfit2 : ∀ k ∈ sortedKeys doc,
      getSecretSize (serializeTop [(k, lookupD doc k)]) ≤ MaxSecretSizeBytes := by
    intro k hk
    exact hfit _ (lookupD_mem doc k (hkperm.mem_iff.mp hk))
  obtain ⟨out, hout, hflat⟩ := chunkGo_ok_of_fits doc (sortedKeys doc) [] [] hfit2
  have hflat2 : out.flatten = (sortedKeys doc).map (fun k => (k, lookupD doc k)) := by
    simpa using hflat
  refine ⟨out, hout, ?_, ?_⟩
  · rw [← List.map_flatten, hflat2, List.map_map]
    have : (Prod.fst ∘ fun k => (k, lookupD doc k)) = id := rfl
    rw [this, List.map_id]
    exact hkperm.nodup_iff.mpr hnd
  · rw [hflat2]
    have h1 : ((sortedKeys doc).map fun k => (k, lookupD doc k)).Perm
        ((doc.map Prod.fst).map fun k => (k, lookupD doc k)) := hkperm.map _
    have h2 : (doc.map Prod.fst).map (fun k => (k, lookupD doc k)) = doc :=
      map_lookup_eq_self doc hnd
    refine h1.trans ?_
    rw [h2]

/-- Witness for C1 at a concrete two-key document given in non-sorted order. -/
theorem chunk_merge_roundtrip_witness :
    ∃ chunks,
      chunkDataIntoSecrets [("b", Value.str "2"), ("a", Value.str "1")] = .ok chunks ∧
      ((chunks.map (fun c => c.map Prod.fst)).flatten).Nodup ∧
      chunks.flatten.Perm [("b", Value.str "2"), ("a", Value.str "1")] :=
  chunk_merge_roundtrip [("b", Value.str "2"), ("a", Value.str "1")]
    (by decide) (by decide)

/-! ### Claim C2: partitioner size contract -/

/-- Claim C2: `chunkDataIntoSecrets` fails (with the key-too-large error, the
only failure of the function) if and only if some single key-value pair,
serialized alone as a one-entry JSON object in the persistence encoding,
exceeds the 50 KiB limit; and on success every produced chunk's serialized
size is at most the limit. -/
theorem chunk_size_contract (doc : Obj) (hnd : (doc.map Prod.fst).Nodup) :
    ((∃ e, chunkDataIntoSecrets doc = .error e) ↔
      ∃ p ∈ doc, MaxSecretSizeBytes < getSecretSize (serializeTop [p])) ∧
    ∀ chunks, chunkDataIntoSecrets doc = .ok chunks →
      ∀ c ∈ chunks, getSecretSize (serializeTop c) ≤ MaxSecretSizeBytes := by
  constructor
  · constructor
    · rintro ⟨e, he⟩
      by_contra hno
      push_neg at hno
      have hfit2 : ∀ k ∈ sortedKeys doc,
          getSecretSize (serializeTop [(k, lookupD doc k)]) ≤ MaxSecretSizeBytes := by
        intro k hk
        exact hno _ (lookupD_mem doc k ((List.perm_insertionSort _ _).mem_iff.mp hk))
      obtain ⟨out, hout, -⟩ := chunkGo_ok_of_fits doc (sortedKeys doc) [] [] hfit2
      rw [show chunkDataIntoSecrets doc = chunkGo doc (sortedKeys doc) [] [] from rfl, hout] at he
      exact Except.noConfusion he
    · rintro ⟨⟨k, v⟩, hp, hbig⟩
      have hk : k ∈ doc.map Prod.fst := List.mem_map.mpr ⟨(k, v), hp, rfl⟩
      have hkk : k ∈ sortedKeys doc := (List.perm_insertionSort _ _).mem_iff.mpr hk
      have hv : lookupD doc k = v := lookupD_eq_of_mem doc k v hnd hp
      exact chunkGo_error_of_exceeds doc _ [] [] ⟨k, hkk, by rw [hv]; exact hbig⟩
  · intro chunks hok
    exact chunkGo_sizes doc _ [] [] chunks (by simp) (by decide) hok

/-- Witness for C2 at a concrete one-key document (which fits, so the failure
condition is false on both sides and the produced chunk obeys the bound). -/
theorem chunk_size_contract_witness :
    ((∃ e, chunkDataIntoSecrets [("k", Value.str "v")] = .error e) ↔
      ∃ p ∈ [("k", Value.str "v")], MaxSecretSizeBytes < getSecretSize (serializeTop [p])) ∧
    ∀ chunks, chunkDataIntoSecrets [("k", Value.str "v")] = .ok chunks →
      ∀ c ∈ chunks, getSecretSize (serializeTop c) ≤ MaxSecretSizeBytes :=
  chunk_size_contract [("k", Value.str "v")] (by decide)

/-! ### Claim C9: partitioning determinism -/

/-- Claim C9: any two enumerations of the same key-value set (documents that
are permutations of each other) produce identical results under
`chunkDataIntoSecrets` — the same chunk sequence, hence byte-identical
serializations. -/
theorem chunk_deterministic (doc1 doc2 : Obj) (hperm : doc1.Perm doc2)
    (hnd : (doc1.map Prod.fst).Nodup) :
    chunkDataIntoSecrets doc1 = chunkDataIntoSecrets doc2 := by
  have hkp : (doc1.map Prod.fst).Perm (doc2.map Prod.fst) := hperm.map Prod.fst
  have hkeys : sortedKeys doc1 = sortedKeys doc2 := by
    apply List.eq_of_perm_of_sorted (r := fun a b : String => a ≤ b)
    · exact (List.perm_insertionSort _ _).trans (hkp.trans (List.perm_insertionSort _ _).symm)
    · exact List.sorted_insertionSort _ _
    · exact List.sorted_insertionSort _ _
  show chunkGo doc1 (sortedKeys doc1) [] [] = chunkGo doc2 (sortedKeys doc2) [] []
  rw [hkeys]
  exact chunkGo_congr doc1 doc2 (sortedKeys doc2) [] []
    (fun k _ => lookupD_congr_perm doc1 doc2 hperm hnd k)

/-- Witness for C9 at two enumerations of the same two-key document. -/
theorem chunk_deterministic_witness :
    chunkDataIntoSecrets [("a", Value.str "1"), ("b", Value.str "2")] =
      chunkDataIntoSecrets [("b", Value.str "2"), ("a", Value.str "1")] :=
  chunk_deterministic [("a", Value.str "1"), ("b", Value.str "2")]
    [("b", Value.str "2"), ("a", Value.str "1")]
    (List.Perm.swap ("b", Value.str "2") ("a", Value.str "1") [])
    (by decide)

/-! ### Flat-mode mutator lemmas -/

theorem checkKeys_false_none_iff (all newData : Obj) :
    checkKeys all newData false = none ↔
      ∀ k ∈ newData.map Prod.fst, k ∉ all.map Prod.fst := by
  induction newData with
  | nil => simp [checkKeys]
  | cons p rest ih =>
    obtain ⟨k, v⟩ := p
    by_cases h : (lookupOpt all k).isSome = true
    · have hm : k ∈ all.map Prod.fst := (lookupOpt_isSome_iff all k).mp h
      simp only [checkKeys, Bool.false_eq_true, if_false, if_pos h]
      constructor
      · intro hc
        exact Option.noConfusion hc
      · intro hall
        exact absurd hm (hall k (by simp))
    · have hm : k ∉ all.map Prod.fst := fun hmem =>
        h ((lookupOpt_isSome_iff all k).mpr hmem)
      simp only [checkKeys, Bool.false_eq_true, if_false, if_neg h, ih]
      constructor
      · intro hall k2 hk2
        rw [List.map_cons, List.mem_cons] at hk2
        rcases hk2 with rfl | hk2
        · exact hm
        · exact hall k2 hk2
      · intro hall k2 hk2
        exact hall k2 (by simp [hk2])

theorem checkKeys_true_none_iff (all newData : Obj) :
    checkKeys all newData true = none ↔
      ∀ k ∈ newData.map Prod.fst, k ∈ all.map Prod.fst := by
  induction newData with
  | nil => simp [checkKeys]
  | cons p rest ih =>
    obtain ⟨k, v⟩ := p
    by_cases h : (lookupOpt all k).isSome = true
    · have hm : k ∈ all.map Prod.fst := (lookupOpt_isSome_iff all k).mp h
      simp only [checkKeys, if_true, if_pos h, ih]
      constructor
      · intro hall k2 hk2
        rw [List.map_cons, List.mem_cons] at hk2
        rcases hk2 with rfl | hk2
        · exact hm
        · exact hall k2 hk2
      · intro hall k2 hk2
        exact hall k2 (by simp [hk2])
    · have hm : k ∉ all.map Prod.fst := fun hmem =>
        h ((lookupOpt_isSome_iff all k).mpr hmem)
      simp only [checkKeys, if_true, if_neg h]
      constructor
      · intro hc
        exact Option.noConfusion hc
      · intro hall
        exact absurd (hall k (by simp)) hm

theorem addKeyValues_error_iff (all newData : Obj) (fu : Bool) :
    (∃ e, addKeyValues all newData fu = .error e) ↔
      checkKeys all newData fu ≠ none := by
  cases hck : checkKeys all newData fu with
  | none =>
    simp only [addKeyValues, hck]
    constructor
    · rintro ⟨e, he⟩
      exact Except.noConfusion he
    · intro hne
      exact absurd rfl hne
  | some e =>
    simp only [addKeyValues, hck]
    exact ⟨fun _ => Option.noConfusion, fun _ => ⟨e, rfl⟩⟩

/-! ### Claim C5: flat-mode conflict symmetry -/

/-- Claim C5: `addKeyValues` with `forceUpdate = false` fails exactly when
some key of the change set is already present in the document, and with
`forceUpdate = true` fails exactly when some key of the change set is absent
(the per-key failure conditions are complementary, hence exhaustive and
mutually exclusive); on success every pair of the change set is written into
the resulting document. -/
theorem addKeyValues_conflict_symmetry (all newData : Obj)
    (hnd : (newData.map Prod.fst).Nodup) :
    ((∃ e, addKeyValues all newData false = .error e) ↔
      ∃ k ∈ newData.map Prod.fst, k ∈ all.map Prod.fst) ∧
    ((∃ e, addKeyValues all newData true = .error e) ↔
      ∃ k ∈ newData.map Prod.fst, k ∉ all.map Prod.fst) ∧
    (∀ fu out, addKeyValues all newData fu = .ok out →
      ∀ p ∈ newData, lookupD out p.1 = p.2) := by
  refine ⟨?_, ?_, ?_⟩
  · rw [addKeyValues_error_iff, Ne, checkKeys_false_none_iff]
    push_neg
    simp
  · rw [addKeyValues_error_iff, Ne, checkKeys_true_none_iff]
    push_neg
    simp
  · intro fu out hout p hp
    cases hck : checkKeys all newData fu with
    | none =>
      simp only [addKeyValues, hck] at hout
      cases hout
      exact lookupD_writeAll_mem all newData p.1 p.2 hnd (by simpa using hp)
    | some e =>
      simp only [addKeyValues, hck] at hout
      exact Except.noConfusion hout

/-- Witness for C5: one-key change set against a one-key document with a
different key (no conflict in add mode, a missing-key conflict in update
mode). -/
theorem addKeyValues_conflict_symmetry_witness :
    ((∃ e, addKeyValues [("a", Value.str "x")] [("b", Value.str "y")] false = .error e) ↔
      ∃ k ∈ [("b", Value.str "y")].map Prod.fst,
        k ∈ [("a", Value.str "x")].map Prod.fst) ∧
    ((∃ e, addKeyValues [("a", Value.str "x")] [("b", Value.str "y")] true = .error e) ↔
      ∃ k ∈ [("b", Value.str "y")].map Prod.fst,
        k ∉ [("a", Value.str "x")].map Prod.fst) ∧
    (∀ fu out, addKeyValues [("a", Value.str "x")] [("b", Value.str "y")] fu = .ok out →
      ∀ p ∈ [("b", Value.str "y")], lookupD out p.1 = p.2) :=
  addKeyValues_conflict_symmetry [("a", Value.str "x")] [("b", Value.str "y")] (by decide)

/-! ### Claim C10: empty mutation requests are rejected at parse time -/

/-- Claim C10: an input that parses to a JSON object with zero keys is
rejected by `parseJSONInput` with the empty-data error, and no successful
parse ever returns an empty change set, so a run never proceeds with nothing
to apply. -/
theorem parseJSONInput_rejects_empty :
    parseJSONInput (Payload.objDoc []) = .error "JSON data is empty" ∧
    ∀ p r, parseJSONInput p = .ok r → r ≠ [] := by
  constructor
  · rfl
  · intro p r hok
    cases p with
    | malformed => exact Except.noConfusion hok
    | nullDoc => exact Except.noConfusion hok
    | objDoc entries =>
      by_cases h : entries.length = 0
      · rw [show parseJSONInput (Payload.objDoc entries) =
            (if entries.length = 0 then .error "JSON data is empty" else .ok entries) from rfl,
          if_pos h] at hok
        exact Except.noConfusion hok
      · rw [show parseJSONInput (Payload.objDoc entries) =
            (if entries.length = 0 then .error "JSON data is empty" else .ok entries) from rfl,
          if_neg h] at hok
        cases hok
        intro hE
        exact h (by simp [hE])

/-! ### Document-merger lemmas -/

theorem mergePart_append (entries : Obj) (name : String) :
    ∀ all : Obj, (entries.map Prod.fst).Nodup →
    (∀ k ∈ entries.map Prod.fst, k ∉ all.map Prod.fst) →
    mergePart all entries name = .ok (all ++ entries) := by
  induction entries with
  | nil =>
    intro all _ _
    simp [mergePart]
  | cons p rest ih =>
    intro all hnd hdisj
    obtain ⟨k, v⟩ := p
    have hna : k ∉ all.map Prod.fst := hdisj k (by simp)
    have hks : ¬ (lookupOpt all k).isSome = true := fun h =>
      hna ((lookupOpt_isSome_iff all k).mp h)
    have hup : upsert all k v = all ++ [(k, v)] := upsert_eq_append all k v hna
    have hnr : k ∉ rest.map Prod.fst := (List.nodup_cons.mp hnd).1
    have hdisj2 : ∀ k2 ∈ rest.map Prod.fst, k2 ∉ (all ++ [(k, v)]).map Prod.fst := by
      intro k2 hk2
      rw [List.map_append, List.mem_append]
      rintro (h | h)
      · exact hdisj k2 (by simp [hk2]) h
      · simp only [List.map_cons, List.map_nil, List.mem_singleton] at h
        subst h
        exact hnr hk2
    show (if (lookupOpt all k).isSome = true then _ else mergePart (upsert all k v) rest name) = _
    rw [if_neg hks, hup, ih (all ++ [(k, v)]) (List.nodup_cons.mp hnd).2 hdisj2]
    simp

theorem mergePart_error (entries : Obj) (name : String) :
    ∀ all : Obj, (∃ k ∈ entries.map Prod.fst, k ∈ all.map Prod.fst) →
    ∃ e, mergePart all entries name = .error e := by
  induction entries with
  | nil =>
    intro all h
    simp at h
  | cons p rest ih =>
    intro all hshare
    obtain ⟨k, v⟩ := p
    by_cases h : (lookupOpt all k).isSome = true
    · refine ⟨"duplicate key '" ++ k ++ "' found in secret part '" ++ name ++ "'", ?_⟩
      show (if (lookupOpt all k).isSome = true then _ else _) = _
      rw [if_pos h]
    · obtain ⟨k0, hk0, hk0a⟩ := hshare
      have hk0r : k0 ∈ rest.map Prod.fst := by
        rw [List.map_cons, List.mem_cons] at hk0
        rcases hk0 with rfl | hk0
        · exact absurd ((lookupOpt_isSome_iff all k0).mpr hk0a) h
        · exact hk0
      have hna : k ∉ all.map Prod.fst := fun hm => h ((lookupOpt_isSome_iff all k).mpr hm)
      have hk0a2 : k0 ∈ (upsert all k v).map Prod.fst := by
        rw [upsert_eq_append all k v hna, List.map_append, List.mem_append]
        exact Or.inl hk0a
      obtain ⟨e, he⟩ := ih (upsert all k v) ⟨k0, hk0r, hk0a2⟩
      refine ⟨e, ?_⟩
      show (if (lookupOpt all k).isSome = true then _ else mergePart (upsert all k v) rest name) = _
      rw [if_neg h, he]

theorem fetchGo_spec (parts : List (String × Obj)) :
    ∀ all : Obj, (∀ p ∈ parts, (p.2.map Prod.fst).Nodup) → (all.map Prod.fst).Nodup →
    ((∃ e, fetchGo (parts.map fun p => (p.1, Payload.objDoc p.2)) all = .error e) ↔
      ¬ (all.map Prod.fst ++ (parts.map fun p => p.2.map Prod.fst).flatten).Nodup) ∧
    (∀ r, fetchGo (parts.map fun p => (p.1, Payload.objDoc p.2)) all = .ok r →
      r = all ++ (parts.map Prod.snd).flatten) := by
  induction parts with
  | nil =>
    intro all _ hnd
    constructor
    · constructor
      · rintro ⟨e, he⟩
        exact Except.noConfusion he
      · intro hne
        exact absurd (by simpa using hnd) hne
    · intro r hr
      cases hr
      simp
  | cons q parts ih =>
    intro all hp hnd
    obtain ⟨name, entries⟩ := q
    have hnde : (entries.map Prod.fst).Nodup := hp (name, entries) (by simp)
    have hpr : ∀ p ∈ parts, (p.2.map Prod.fst).Nodup := fun p h => hp p (by simp [h])
    by_cases hshare : ∃ k ∈ entries.map Prod.fst, k ∈ all.map Prod.fst
    · obtain ⟨e, he⟩ := mergePart_error entries name all hshare
      have hred : fetchGo (((name, entries) :: parts).map fun p => (p.1, Payload.objDoc p.2)) all =
          .error e := by
        show (match mergePart all entries name with
          | .error e => Except.error e
          | .ok all2 => fetchGo (parts.map fun p : String × Obj => (p.1, Payload.objDoc p.2)) all2) = _
        rw [he]
      constructor
      · constructor
        · intro _
          obtain ⟨k0, hk0e, hk0a⟩ := hshare
          intro hN
          rw [List.map_cons, List.flatten_cons, List.nodup_append] at hN
          exact hN.2.2 hk0a (List.mem_append.mpr (Or.inl hk0e))
        · intro _
          exact ⟨e, hred⟩
      · intro r hr
        rw [hred] at hr
        exact Except.noConfusion hr
    · push_neg at hshare
      have hmp : mergePart all entries name = .ok (all ++ entries) :=
        mergePart_append entries name all hnde hshare
      have hred : fetchGo (((name, entries) :: parts).map fun p => (p.1, Payload.objDoc p.2)) all =
          fetchGo (parts.map fun p => (p.1, Payload.objDoc p.2)) (all ++ entries) := by
        show (match mergePart all entries name with
          | .error e => Except.error e
          | .ok all2 => fetchGo (parts.map fun p : String × Obj => (p.1, Payload.objDoc p.2)) all2) = _
        rw [hmp]
      have hnd2 : ((all ++ entries).map Prod.fst).Nodup := by
        rw [List.map_append, List.nodup_append]
        exact ⟨hnd, hnde, fun a ha hb => hshare a hb ha⟩
      obtain ⟨ihE, ihO⟩ := ih (all ++ entries) hpr hnd2
      constructor
      · rw [hred, ihE, List.map_append, List.map_cons, List.flatten_cons, List.append_assoc]
      · intro r hr
        rw [hred] at hr
        rw [ihO r hr, List.map_cons, List.flatten_cons, List.append_assoc]

/-! ### Claim C3: merge duplicate-key policy -/

/-- Claim C3: merging well-formed parts in the given (ascending part-index)
order fails exactly when some key occurs in two different parts (given that
keys are unique inside each part, the concatenated key lists then contain a
duplicate), and a successful merge returns exactly the concatenation of the
parts' entries — a conflict is never silently resolved by overwriting. -/
theorem fetchAll_duplicate_policy (parts : List (String × Obj))
    (hp : ∀ p ∈ parts, (p.2.map Prod.fst).Nodup) :
    ((∃ e, fetchAllSecretData (parts.map fun p => (p.1, Payload.objDoc p.2)) = .error e) ↔
      ¬ ((parts.map fun p => p.2.map Prod.fst).flatten).Nodup) ∧
    (∀ r, fetchAllSecretData (parts.map fun p => (p.1, Payload.objDoc p.2)) = .ok r →
      r = (parts.map Prod.snd).flatten) := by
  have h := fetchGo_spec parts [] hp (by simp)
  simpa [fetchAllSecretData] using h

/-- Witness for C3: two parts sharing the key `a`; the merge fails. -/
theorem fetchAll_duplicate_policy_witness :
    ((∃ e, fetchAllSecretData
        ([("s", [("a", Value.str "1")]), ("s-1", [("a", Value.str "2")])].map
          fun p => (p.1, Payload.objDoc p.2)) = .error e) ↔
      ¬ (([("s", [("a", Value.str "1")]), ("s-1", [("a", Value.str "2")])].map
          fun p => p.2.map Prod.fst).flatten).Nodup) ∧
    (∀ r, fetchAllSecretData
        ([("s", [("a", Value.str "1")]), ("s-1", [("a", Value.str "2")])].map
          fun p => (p.1, Payload.objDoc p.2)) = .ok r →
      r = ([("s", [("a", Value.str "1")]), ("s-1", [("a", Value.str "2")])].map
          Prod.snd).flatten) :=
  fetchAll_duplicate_policy [("s", [("a", Value.str "1")]), ("s-1", [("a", Value.str "2")])]
    (by decide)

/-! ### Claim C6: empty-part rejection (code bug) -/

/-- Claim C6 fails on the code: a part whose payload parses to a JSON object
with zero keys (a non-nil empty Go map) is silently skipped by
`FetchAllSecretData` — the merge succeeds — because the code's guard
`data != nil` only catches the JSON `null` payload, for which the unmarshaled
map stays nil; the error message ("empty/null JSON data") and the spec both
intend zero-key objects to be rejected as well. -/
theorem fetch_empty_object_part_skipped :
    fetchAllSecretData
        [("s", Payload.objDoc [("a", Value.str "1")]), ("s-1", Payload.objDoc [])] =
      .ok [("a", Value.str "1")] ∧
    fetchAllSecretData [("s", Payload.nullDoc)] =
      .error "secret 's' contains empty/null JSON data" :=
  ⟨rfl, rfl⟩

/-! ### Decimal rendering lemmas -/

theorem natDigits_unfold (n : Nat) : natDigits n =
    if n < 10 then [digitChar n] else natDigits (n / 10) ++ [digitChar (n % 10)] := by
  rw [natDigits]
  by_cases h : n < 10 <;> simp [h]

theorem toNat_digitChar (d : Nat) (h : d < 10) : (digitChar d).toNat = 48 + d := by
  interval_cases d <;> decide

theorem digitsVal_append_one (a : List Char) (c : Char) :
    digitsVal (a ++ [c]) = digitsVal a * 10 + (c.toNat - 48) := by
  simp [digitsVal, List.foldl_append]

theorem digitsVal_natDigits (n : Nat) : digitsVal (natDigits n) = n := by
  induction n using Nat.strong_induction_on with
  | _ n ih =>
    by_cases h : n < 10
    · rw [natDigits_unfold, if_pos h]
      simp [digitsVal, toNat_digitChar n h]
    · rw [natDigits_unfold, if_neg h, digitsVal_append_one,
        ih (n / 10) (Nat.div_lt_self (by omega) (by omega)),
        toNat_digitChar (n % 10) (Nat.mod_lt n (by omega))]
      omega

theorem natStr_inj (a b : Nat) (h : natStr a = natStr b) : a = b := by
  have hd : natDigits a = natDigits b := congrArg String.data h
  have := congrArg digitsVal hd
  rwa [digitsVal_natDigits, digitsVal_natDigits] at this

theorem fmtInt_nonneg (i : Int) (h : 0 ≤ i) : fmtInt i = natStr i.toNat := by
  rw [fmtInt, if_neg (not_lt.mpr h)]

theorem fmtInt_inj_nonneg (a b : Int) (ha : 0 ≤ a) (hb : 0 ≤ b)
    (h : fmtInt a = fmtInt b) : a = b := by
  rw [fmtInt_nonneg a ha, fmtInt_nonneg b hb] at h
  have := natStr_inj _ _ h
  omega

theorem string_append_right_inj (s t1 t2 : String) (h : s ++ t1 = s ++ t2) : t1 = t2 := by
  obtain ⟨d1⟩ := t1
  obtain ⟨d2⟩ := t2
  have hd : s.data ++ d1 = s.data ++ d2 := by
    have := congrArg String.data h
    rwa [String.data_append, String.data_append] at this
  rw [List.append_cancel_left hd]

theorem nameOfIndex_inj (base : String) (a b : Int) (ha : 0 ≤ a) (hb : 0 ≤ b)
    (h : nameOfIndex base a = nameOfIndex base b) : a = b := by
  by_cases h0a : a = 0 <;> by_cases h0b : b = 0
  · rw [h0a, h0b]
  · exfalso
    rw [nameOfIndex, if_pos h0a, nameOfIndex, if_neg h0b] at h
    have := congrArg String.length h
    rw [String.length_append, String.length_append] at this
    have h1 : ("-" : String).length = 1 := rfl
    omega
  · exfalso
    rw [nameOfIndex, if_neg h0a, nameOfIndex, if_pos h0b] at h
    have := congrArg String.length h
    rw [String.length_append, String.length_append] at this
    have h1 : ("-" : String).length = 1 := rfl
    omega
  · rw [nameOfIndex, if_neg h0a, nameOfIndex, if_neg h0b, String.append_assoc,
      String.append_assoc] at h
    have h2 := string_append_right_inj base _ _ h
    have h3 := string_append_right_inj "-" _ _ h2
    exact fmtInt_inj_nonneg a b ha hb h3

/-! ### Slot-allocator lemmas -/

theorem getLastD_mem (ns : List Int) (hne : ns ≠ []) : ns.getLastD (-1) ∈ ns := by
  induction ns with
  | nil => exact absurd rfl hne
  | cons a rest ih =>
    cases rest with
    | nil => simp [List.getLastD]
    | cons b t =>
      have hgl : (a :: b :: t).getLastD (-1) = (b :: t).getLastD (-1) := rfl
      rw [hgl]
      exact List.mem_cons_of_mem a (ih (by simp))

theorem sorted_le_getLastD (ns : List Int) (hs : ns.Sorted (fun a b : Int => a < b)) :
    ∀ x ∈ ns, x ≤ ns.getLastD (-1) := by
  induction ns with
  | nil => simp
  | cons a rest ih =>
    intro x hx
    rcases List.sorted_cons.mp hs with ⟨ha, hrest⟩
    cases rest with
    | nil =>
      simp only [List.mem_singleton] at hx
      subst hx
      simp [List.getLastD]
    | cons b t =>
      have hgl : (a :: b :: t).getLastD (-1) = (b :: t).getLastD (-1) := rfl
      rw [hgl]
      rcases List.mem_cons.mp hx with rfl | hx2
      · have hb : x < b := ha b (by simp)
        have hbl : b ≤ (b :: t).getLastD (-1) := ih hrest b (by simp)
        omega
      · exact ih hrest x hx2

theorem insertionSort_eq_of_sorted (ns : List Int)
    (hs : ns.Sorted (fun a b : Int => a < b)) :
    List.insertionSort (fun a b : Int => a ≤ b) ns = ns := by
  apply List.eq_of_perm_of_sorted (r := fun a b : Int => a ≤ b)
  · exact List.perm_insertionSort _ _
  · exact List.sorted_insertionSort _ _
  · exact hs.imp (fun h => le_of_lt h)

theorem assignGo_length (base : String) (ns : List Int) (maxNum : Int) (cs : List Obj) :
    ∀ i, (assignGo base ns maxNum i cs).length = cs.length := by
  induction cs with
  | nil => intro i; rfl
  | cons c cs ih =>
    intro i
    show (assignGo base ns maxNum (i + 1) cs).length + 1 = cs.length + 1
    rw [ih (i + 1)]

theorem assignGo_getD (base : String) (ns : List Int) (maxNum : Int) (cs : List Obj) :
    ∀ i j, j < cs.length →
      (assignGo base ns maxNum i cs).getD j ("", []) =
        (slotName base ns maxNum (i + j), cs.getD j []) := by
  induction cs with
  | nil =>
    intro i j hj
    simp at hj
  | cons c cs ih =>
    intro i j hj
    cases j with
    | zero => rfl
    | succ j =>
      show (assignGo base ns maxNum (i + 1) cs).getD j ("", []) = _
      rw [ih (i + 1) j (by simpa using hj)]
      have : i + 1 + j = i + (j + 1) := by omega
      rw [this]
      rfl

theorem assignGo_map_fst (base : String) (ns : List Int) (maxNum : Int) (cs : List Obj) :
    ∀ i, (assignGo base ns maxNum i cs).map Prod.fst =
      (List.range' i cs.length).map (slotName base ns maxNum) := by
  induction cs with
  | nil => intro i; rfl
  | cons c cs ih =>
    intro i
    show slotName base ns maxNum i :: (assignGo base ns maxNum (i + 1) cs).map Prod.fst = _
    rw [ih (i + 1)]
    rfl

theorem slotIndexSpec_nonneg (ns : List Int) (maxNum : Int)
    (hnn : ∀ x ∈ ns, 0 ≤ x) (hmax : 0 ≤ maxNum) (i : Nat) :
    0 ≤ slotIndexSpec ns maxNum i := by
  rw [slotIndexSpec]
  by_cases h : i < ns.length
  · rw [dif_pos h]
    exact hnn _ (ns.get_mem i h)
  · rw [dif_neg h]
    have : ns.length ≤ i := not_lt.mp h
    omega

theorem slotIndexSpec_lt (ns : List Int) (maxNum : Int)
    (hs : ns.Sorted (fun a b : Int => a < b))
    (hmax : ∀ x ∈ ns, x ≤ maxNum) (i j : Nat) (hij : i < j) :
    slotIndexSpec ns maxNum i < slotIndexSpec ns maxNum j := by
  rw [slotIndexSpec, slotIndexSpec]
  by_cases hj : j < ns.length
  · have hi : i < ns.length := lt_trans hij hj
    rw [dif_pos hi, dif_pos hj]
    exact List.pairwise_iff_get.mp hs ⟨i, hi⟩ ⟨j, hj⟩ hij
  · rw [dif_neg hj]
    by_cases hi : i < ns.length
    · rw [dif_pos hi]
      have h1 : ns.get ⟨i, hi⟩ ≤ maxNum := hmax _ (ns.get_mem i hi)
      have h2 : ns.length ≤ j := not_lt.mp hj
      omega
    · rw [dif_neg hi]
      omega

theorem slotName_eq_nameOfIndex (base : String) (ns : List Int) (maxNum : Int)
    (hmax : 0 ≤ maxNum) (i : Nat) :
    slotName base ns maxNum i = nameOfIndex base (slotIndexSpec ns maxNum i) := by
  rw [slotName, slotIndexSpec]
  by_cases h : i < ns.length
  · rw [dif_pos h, dif_pos h]
  · rw [dif_neg h, dif_neg h]
    have hlen : ns.length ≤ i := not_lt.mp h
    have hpos : maxNum + 1 + ((i : Int) - (ns.length : Int)) ≠ 0 := by
      omega
    rw [nameOfIndex, if_neg hpos]

/-! ### Claim C7: no-shrink invariant -/

/-- Claim C7: whenever there are fewer chunks than existing part indices,
`redistributeSecrets` fails with the insufficient-chunks error; the check
precedes the write loop, and an `error` result of the embedding carries no
write plan, so zero writes are issued on this path. -/
theorem redistribute_no_shrink (base : String) (chunks : List Obj) (numbers : List Int)
    (h : chunks.length < numbers.length) :
    ∃ e, redistributeSecrets base chunks numbers = .error e := by
  have hlen : (List.insertionSort (fun a b : Int => a ≤ b) numbers).length = numbers.length :=
    (List.perm_insertionSort _ _).length_eq
  refine ⟨"number of new chunks (" ++ natStr chunks.length ++
    ") is less than existing multipart secrets (" ++
    natStr (List.insertionSort (fun a b : Int => a ≤ b) numbers).length ++ ")", ?_⟩
  simp only [redistributeSecrets]
  rw [if_pos (by rw [hlen]; exact h)]

/-- Witness for C7: one existing part index and an empty chunk list. -/
theorem redistribute_no_shrink_witness :
    ∃ e, redistributeSecrets "s" [] [0] = .error e :=
  redistribute_no_shrink "s" [] [0] (by decide)

/-! ### Claim C8: slot assignment -/

/-- Claim C8: for a non-empty strictly ascending list of non-negative
existing part indices and at least as many chunks, `redistributeSecrets`
succeeds and writes chunk `i`, for `i` below the number `m` of existing
parts, to the name of index `E[i]` (index 0 being the bare base name), and
chunk `i ≥ m` to the newly allocated index `max(E) + 1 + (i - m)`; every
newly allocated index is strictly greater than every existing index, and the
assigned names are pairwise distinct. -/
theorem redistribute_slot_assignment (base : String) (chunks : List Obj) (numbers : List Int)
    (hs : numbers.Sorted (fun a b : Int => a < b)) (hne : numbers ≠ [])
    (hnn : ∀ x ∈ numbers, 0 ≤ x) (hlen : numbers.length ≤ chunks.length) :
    ∃ writes, redistributeSecrets base chunks numbers = .ok writes ∧
      writes.length = chunks.length ∧
      (∀ i, i < chunks.length →
        writes.getD i ("", []) =
          (nameOfIndex base (slotIndexSpec numbers (numbers.getLastD (-1)) i),
            chunks.getD i [])) ∧
      (∀ i, numbers.length ≤ i → ∀ x ∈ numbers,
        x < slotIndexSpec numbers (numbers.getLastD (-1)) i) ∧
      (writes.map Prod.fst).Nodup := by
  have hsort : List.insertionSort (fun a b : Int => a ≤ b) numbers = numbers :=
    insertionSort_eq_of_sorted numbers hs
  have hmax0 : 0 ≤ numbers.getLastD (-1) := hnn _ (getLastD_mem numbers hne)
  have hmax : ∀ x ∈ numbers, x ≤ numbers.getLastD (-1) := sorted_le_getLastD numbers hs
  refine ⟨assignGo base numbers (numbers.getLastD (-1)) 0 chunks, ?_, ?_, ?_, ?_, ?_⟩
  · simp only [redistributeSecrets, hsort]
    rw [if_neg (not_lt.mpr hlen)]
  · exact assignGo_length base numbers _ chunks 0
  · intro i hi
    rw [assignGo_getD base numbers _ chunks 0 i hi, Nat.zero_add,
      slotName_eq_nameOfIndex base numbers _ hmax0 i]
  · intro i hi x hx
    rw [slotIndexSpec, dif_neg (not_lt.mpr hi)]
    have h1 : x ≤ numbers.getLastD (-1) := hmax x hx
    omega
  · rw [assignGo_map_fst base numbers _ chunks 0]
    apply List.Nodup.map_on ?_ (List.nodup_range' 0 chunks.length)
    intro i hi j hj hije
    rw [slotName_eq_nameOfIndex base numbers _ hmax0 i,
      slotName_eq_nameOfIndex base numbers _ hmax0 j] at hije
    have hspec := nameOfIndex_inj base _ _
      (slotIndexSpec_nonneg numbers _ hnn hmax0 i)
      (slotIndexSpec_nonneg numbers _ hnn hmax0 j) hije
    by_contra hij
    rcases lt_trichotomy i j with h | h | h
    · exact absurd hspec (ne_of_lt (slotIndexSpec_lt numbers _ hs hmax i j h))
    · exact hij h
    · exact absurd hspec.symm (ne_of_lt (slotIndexSpec_lt numbers _ hs hmax j i h))

/-- Witness for C8: three chunks over existing part indices `[0, 1]`; chunk 2
is assigned the fresh index 2 (name `s-2`). -/
theorem redistribute_slot_assignment_witness :
    ∃ writes, redistributeSecrets "s"
        [[("a", Value.str "1")], [("b", Value.str "2")], [("c", Value.str "3")]] [0, 1] =
        .ok writes ∧
      writes.length =
        ([[("a", Value.str "1")], [("b", Value.str "2")], [("c", Value.str "3")]] :
          List Obj).length ∧
      (∀ i, i < ([[("a", Value.str "1")], [("b", Value.str "2")], [("c", Value.str "3")]] :
          List Obj).length →
        writes.getD i ("", []) =
          (nameOfIndex "s" (slotIndexSpec [0, 1] ([0, 1].getLastD (-1)) i),
            ([[("a", Value.str "1")], [("b", Value.str "2")], [("c", Value.str "3")]] :
              List Obj).getD i [])) ∧
      (∀ i, ([0, 1] : List Int).length ≤ i → ∀ x ∈ ([0, 1] : List Int),
        x < slotIndexSpec [0, 1] ([0, 1].getLastD (-1)) i) ∧
      (writes.map Prod.fst).Nodup :=
  redistribute_slot_assignment "s"
    [[("a", Value.str "1")], [("b", Value.str "2")], [("c", Value.str "3")]] [0, 1]
    (by decide) (by decide) (by decide) (by decide)

/-! ### Path-mode mutator lemmas -/

theorem mergeAtTarget_cons_false (target : Obj) (k : String) (v : Value) (rest : Obj) :
    mergeAtTarget target ((k, v) :: rest) false =
      if (lookupOpt target k).isSome = true then
        (target, some ("key '" ++ k ++ "' already exists at path"))
      else mergeAtTarget (upsert target k v) rest false := rfl

theorem mergeAtTarget_cons_true (target : Obj) (k : String) (v : Value) (rest : Obj) :
    mergeAtTarget target ((k, v) :: rest) true =
      if (lookupOpt target k).isSome = true then
        mergeAtTarget (upsert target k v) rest true
      else (target, some ("key '" ++ k ++ "' not found at path for update")) := rfl

theorem writeAll_cons (m : Obj) (k : String) (v : Value) (rest : Obj) :
    writeAll m ((k, v) :: rest) = writeAll (upsert m k v) rest := rfl

theorem mergeAtTarget_writes_take (newData : Obj) (fu : Bool) :
    ∀ target : Obj, ∃ i, i ≤ newData.length ∧
      (mergeAtTarget target newData fu).1 = writeAll target (newData.take i) ∧
      ((mergeAtTarget target newData fu).2 = none → i = newData.length) := by
  induction newData with
  | nil =>
    intro target
    exact ⟨0, by simp, rfl, fun _ => rfl⟩
  | cons p rest ih =>
    intro target
    obtain ⟨k, v⟩ := p
    cases fu with
    | false =>
      rw [mergeAtTarget_cons_false]
      by_cases hex : (lookupOpt target k).isSome = true
      · rw [if_pos hex]
        refine ⟨0, by simp, rfl, ?_⟩
        intro hc
        exact Option.noConfusion hc
      · rw [if_neg hex]
        obtain ⟨i, hle, h1, h2⟩ := ih (upsert target k v)
        refine ⟨i + 1, by simpa using hle, ?_, ?_⟩
        · rw [List.take_succ_cons, writeAll_cons]
          exact h1
        · intro hc
          rw [h2 hc, List.length_cons]
    | true =>
      rw [mergeAtTarget_cons_true]
      by_cases hex : (lookupOpt target k).isSome = true
      · rw [if_pos hex]
        obtain ⟨i, hle, h1, h2⟩ := ih (upsert target k v)
        refine ⟨i + 1, by simpa using hle, ?_, ?_⟩
        · rw [List.take_succ_cons, writeAll_cons]
          exact h1
        · intro hc
          rw [h2 hc, List.length_cons]
      · rw [if_neg hex]
        refine ⟨0, by simp, rfl, ?_⟩
        intro hc
        exact Option.noConfusion hc

theorem addPathGo_writes_take (newData : Obj) (fu : Bool) :
    ∀ (segs : List String) (all : Obj), ∃ i, i ≤ newData.length ∧
      (addPathGo all newData segs fu).1 = writeAtPath all segs (newData.take i) ∧
      ((addPathGo all newData segs fu).2 = none → i = newData.length) := by
  intro segs
  induction segs with
  | nil =>
    intro all
    obtain ⟨i, hle, h1, h2⟩ := mergeAtTarget_writes_take newData fu all
    exact ⟨i, hle, h1, h2⟩
  | cons key rest ih =>
    intro all
    cases hlk : lookupOpt all key with
    | none =>
      refine ⟨0, by simp, ?_, ?_⟩
      · show (addPathGo all newData (key :: rest) fu).1 = writeAtPath all (key :: rest) []
        simp [addPathGo, writeAtPath, hlk]
      · intro hc
        have : (addPathGo all newData (key :: rest) fu).2 =
            some ("key '" ++ key ++ "' in path does not exist") := by
          simp [addPathGo, hlk]
        rw [this] at hc
        exact Option.noConfusion hc
    | some val =>
      cases val with
      | obj inner =>
        obtain ⟨i, hle, h1, h2⟩ := ih inner
        have hfst : (addPathGo all newData (key :: rest) fu).1 =
            upsert all key (.obj (addPathGo inner newData rest fu).1) := by
          simp [addPathGo, hlk]
        have hsnd : (addPathGo all newData (key :: rest) fu).2 =
            (addPathGo inner newData rest fu).2 := by
          simp [addPathGo, hlk]
        refine ⟨i, hle, ?_, ?_⟩
        · rw [hfst, h1]
          simp [writeAtPath, hlk]
        · intro hc
          rw [hsnd] at hc
          exact h2 hc
      | str s =>
        refine ⟨0, by simp, ?_, ?_⟩
        · show (addPathGo all newData (key :: rest) fu).1 = writeAtPath all (key :: rest) []
          simp [addPathGo, writeAtPath, hlk]
        · intro hc
          have : (addPathGo all newData (key :: rest) fu).2 =
              some ("key '" ++ key ++ "' in path is not a map") := by
            simp [addPathGo, hlk]
          rw [this] at hc
          exact Option.noConfusion hc
      | num lit =>
        refine ⟨0, by simp, ?_, ?_⟩
        · show (addPathGo all newData (key :: rest) fu).1 = writeAtPath all (key :: rest) []
          simp [addPathGo, writeAtPath, hlk]
        · intro hc
          have : (addPathGo all newData (key :: rest) fu).2 =
              some ("key '" ++ key ++ "' in path is not a map") := by
            simp [addPathGo, hlk]
          rw [this] at hc
          exact Option.noConfusion hc
      | bool b =>
        refine ⟨0, by simp, ?_, ?_⟩
        · show (addPathGo all newData (key :: rest) fu).1 = writeAtPath all (key :: rest) []
          simp [addPathGo, writeAtPath, hlk]
        · intro hc
          have : (addPathGo all newData (key :: rest) fu).2 =
              some ("key '" ++ key ++ "' in path is not a map") := by
            simp [addPathGo, hlk]
          rw [this] at hc
          exact Option.noConfusion hc
      | null =>
        refine ⟨0, by simp, ?_, ?_⟩
        · show (addPathGo all newData (key :: rest) fu).1 = writeAtPath all (key :: rest) []
          simp [addPathGo, writeAtPath, hlk]
        · intro hc
          have : (addPathGo all newData (key :: rest) fu).2 =
              some ("key '" ++ key ++ "' in path is not a map") := by
            simp [addPathGo, hlk]
          rw [this] at hc
          exact Option.noConfusion hc
      | arr es =>
        refine ⟨0, by simp, ?_, ?_⟩
        · show (addPathGo all newData (key :: rest) fu).1 = writeAtPath all (key :: rest) []
          simp [addPathGo, writeAtPath, hlk]
        · intro hc
          have : (addPathGo all newData (key :: rest) fu).2 =
              some ("key '" ++ key ++ "' in path is not a map") := by
            simp [addPathGo, hlk]
          rw [this] at hc
          exact Option.noConfusion hc

/-! ### Claim C4: path-mode mutation is not all-or-nothing (corrected) -/

/-- Counterexample to claim C4 as stated: on the document
`{"p": {"x": "1"}}`, adding `{"a": "2", "x": "3"}` at path `p` without
`forceUpdate` fails (the key `x` already exists), yet the document has been
mutated — the earlier pair `a` was already written into the nested object
before the conflict on `x` was detected. -/
theorem addSecretToGivenPath_not_all_or_nothing :
    ((addSecretToGivenPath [("p", Value.obj [("x", Value.str "1")])]
        [("a", Value.str "2"), ("x", Value.str "3")] "p" false).2).isSome = true ∧
    (addSecretToGivenPath [("p", Value.obj [("x", Value.str "1")])]
        [("a", Value.str "2"), ("x", Value.str "3")] "p" false).1 =
      [("p", Value.obj [("x", Value.str "1"), ("a", Value.str "2")])] ∧
    (addSecretToGivenPath [("p", Value.obj [("x", Value.str "1")])]
        [("a", Value.str "2"), ("x", Value.str "3")] "p" false).1 ≠
      [("p", Value.obj [("x", Value.str "1")])] := by
  refine ⟨rfl, rfl, ?_⟩
  intro h
  have hser := congrArg serializeTop h
  revert hser
  decide

/-- Claim C4, amended: `addSecretToGivenPath` is not all-or-nothing.  What
holds instead: the resulting document is always the original with some prefix
of the change set applied at the path (the empty prefix when path resolution
itself fails, and the whole change set exactly when no error is reported); an
error arising at a later entry of the change set leaves the earlier entries
already written. -/
theorem addSecretToGivenPath_writes_prefix_of_changes (all newData : Obj)
    (jsonPath : String) (fu : Bool) :
    ∃ i, i ≤ newData.length ∧
      (addSecretToGivenPath all newData jsonPath fu).1 =
        writeAtPath all (splitOnDot jsonPath) (newData.take i) ∧
      ((addSecretToGivenPath all newData jsonPath fu).2 = none → i = newData.length) :=
  addPathGo_writes_take newData fu (splitOnDot jsonPath) all

end MultipartSecrets
